import Mathlib

/-!
# Verification of the uncore-sim memory-subsystem simulator

Shallow embedding of the three source files of `uncore-sim`:

* `src/crossbar.rs` — the address-range router (`Crossbar`);
* `src/drain.rs`    — the `Drain` stage contract and the `Delay` wrapper;
* `src/mem.rs`      — the behavioral memory model (`Mem`), the trivial
  `NoDelay` timing engine, and the beat-progress bookkeeping (`Progress`)
  used by the detailed DRAM timing engine.

Rust `HashMap`s are embedded as association lists with replace-on-insert
semantics; `u64` addresses and `usize` ids become `Nat` (none of the
verified operations can overflow 64 bits on the inputs exercised —
no arithmetic wraps are performed by the source on these paths).
Rust `panic!` / failed `assert!` becomes `Except.error`.
-/

namespace UncoreSim

/-! ## Association-list model of `HashMap` / `BTreeMap` entries -/

/-- First-match lookup, as `HashMap::get` (keys are unique in a `HashMap`,
so first match is the match). -/
def assocLookup {α : Type} : List (Nat × α) → Nat → Option α
  | [], _ => none
  | (k2, v) :: rest, k => if k2 = k then some v else assocLookup rest k

/-- Replace-or-append insert, as `HashMap::insert`. -/
def assocInsert {α : Type} : List (Nat × α) → Nat → α → List (Nat × α)
  | [], k, v => [(k, v)]
  | (k2, v2) :: rest, k, v =>
    if k2 = k then (k, v) :: rest else (k2, v2) :: assocInsert rest k v

/-- Remove the entry with the given key, as `HashMap::remove`. -/
def assocErase {α : Type} : List (Nat × α) → Nat → List (Nat × α)
  | [], _ => []
  | (k2, v2) :: rest, k =>
    if k2 = k then rest else (k2, v2) :: assocErase rest k

theorem assocLookup_insert {α : Type} (l : List (Nat × α)) (k : Nat) (v : α) (j : Nat) :
    assocLookup (assocInsert l k v) j = if k = j then some v else assocLookup l j := by
  induction l with
  | nil => simp [assocInsert, assocLookup]
  | cons p rest ih =>
    obtain ⟨k2, v2⟩ := p
    by_cases h2 : k2 = k
    · subst h2
      by_cases h : k2 = j <;> simp [assocInsert, assocLookup, h]
    · by_cases hj : k2 = j
      · subst hj
        have hk : ¬ (k = k2) := fun hh => h2 hh.symm
        simp [assocInsert, h2, assocLookup, hk]
      · simp [assocInsert, h2, assocLookup, hj, ih]

theorem assocInsert_of_lookup_none {α : Type} (l : List (Nat × α)) (k : Nat) (v : α)
    (h : assocLookup l k = none) : assocInsert l k v = l ++ [(k, v)] := by
  induction l with
  | nil => simp [assocInsert]
  | cons p rest ih =>
    obtain ⟨k2, v2⟩ := p
    by_cases h2 : k2 = k
    · simp [assocLookup, h2] at h
    · simp [assocLookup, h2] at h
      simp [assocInsert, h2, ih h]

theorem assocErase_append_self {α : Type} (l : List (Nat × α)) (k : Nat) (v : α)
    (h : assocLookup l k = none) : assocErase (l ++ [(k, v)]) k = l := by
  induction l with
  | nil => simp [assocErase]
  | cons p rest ih =>
    obtain ⟨k2, v2⟩ := p
    by_cases h2 : k2 = k
    · simp [assocLookup, h2] at h
    · simp [assocLookup, h2] at h
      simp [assocErase, h2, ih h]

theorem isSome_of_lookup_erase {α : Type} (l : List (Nat × α)) (k j : Nat)
    (h : (assocLookup (assocErase l k) j).isSome) : (assocLookup l j).isSome := by
  induction l with
  | nil =>
    simp [assocErase] at h
    exact h
  | cons p rest ih =>
    obtain ⟨k2, v2⟩ := p
    by_cases h2 : k2 = k
    · simp [assocErase, h2] at h
      by_cases hj : k2 = j
      · simp [assocLookup, hj]
      · simpa [assocLookup, hj] using h
    · by_cases hj : k2 = j
      · simp [assocLookup, hj]
      · simp [assocErase, h2, assocLookup, hj] at h ⊢
        exact ih h

/-! ## Crossbar (`src/crossbar.rs`)

`Crossbar` holds `children : BTreeMap<A, (A, Box<dyn Drain>)>` mapping a
range start to the exclusive end and a child stage.  We embed a registered
entry as a `Range` (the child stage itself is irrelevant to routing, so it
is represented by an index), and the table as the list of registered
entries. -/

structure Range where
  start : Nat
  stop : Nat
  child : Nat
deriving DecidableEq

/-- Message of the `Crossbar::push` out-of-range panic. -/
def oobMsg : String := "Out-of-range request address"

/-- Embedding of `self.children.range_mut(..addr).last()` in `Crossbar::push`: among the
registered entries whose start is **strictly below** `addr` (Rust
`..addr` excludes `addr`), the one with the greatest start. -/
def lookupLt (children : List Range) (addr : Nat) : Option Range :=
  children.foldl
    (fun best r =>
      if r.start < addr then
        match best with
        | none => some r
        | some b => if b.start < r.start then some r else some b
      else best)
    none

/-- Embedding of `Crossbar::push` (src/crossbar.rs:43-51): take the `range_mut(..addr)`
predecessor; panic when it does not exist or its exclusive end is `<= addr`;
otherwise forward the request to that entry's child (returned here as the
child's index). -/
def crossbarPush (children : List Range) (addr : Nat) : Except String Nat :=
  match lookupLt children addr with
  | none => .error oobMsg
  | some r => if r.stop ≤ addr then .error oobMsg else .ok r.child

theorem lookupLt_mem (children : List Range) (addr : Nat) (r : Range)
    (h : lookupLt children addr = some r) : r ∈ children ∧ r.start < addr := by
  suffices H : ∀ (l : List Range) (acc : Option Range),
      (∀ b, acc = some b → b ∈ children ∧ b.start < addr) →
      (∀ x ∈ l, x ∈ children) →
      ∀ b, l.foldl
        (fun best r =>
          if r.start < addr then
            match best with
            | none => some r
            | some b => if b.start < r.start then some r else some b
          else best) acc = some b → b ∈ children ∧ b.start < addr by
    exact H children none (by simp) (fun x hx => hx) r h
  intro l
  induction l with
  | nil =>
    intro acc hacc _ b hb
    exact hacc b hb
  | cons x rest ih =>
    intro acc hacc hmem b hb
    simp only [List.foldl_cons] at hb
    refine ih _ ?_ (fun y hy => hmem y (List.mem_cons_of_mem x hy)) b hb
    intro c hc
    by_cases hx : x.start < addr
    · simp only [hx, if_true] at hc
      cases hacq : acc with
      | none =>
        subst hacq
        simp at hc
        subst hc
        exact ⟨hmem x (List.mem_cons_self x rest), hx⟩
      | some a =>
        subst hacq
        simp at hc
        by_cases hlt : a.start < x.start
        · simp [hlt] at hc
          subst hc
          exact ⟨hmem x (List.mem_cons_self x rest), hx⟩
        · simp [hlt] at hc
          exact hacc c (by rw [hc])
    · simp only [hx, if_false] at hc
      exact hacc c hc

/-! ## Delay (`src/drain.rs`)

`Delay<T>` wraps an inner `Drain` stage.  The claims exercise it around an
immediate-echo inner stage, which we embed concretely: its state is the
FIFO of responses made ready by `push` (the echo of the request), drained
by `pop`; its `tick` does nothing. -/

structure EchoState (β : Type) where
  ready : List β
deriving DecidableEq

def echoPush {α β : Type} (f : α → β) (s : EchoState β) (req : α) : EchoState β :=
  ⟨s.ready ++ [f req]⟩

def echoPop {β : Type} (s : EchoState β) : Option β × EchoState β :=
  match s.ready with
  | [] => (none, s)
  | r :: rest => (some r, ⟨rest⟩)

/-- State of `Delay<T>` (src/drain.rs:11-20), with the echo stage as the
inner `T`; `downlink` and `uplink` are the time-tagged FIFOs. -/
structure DelayState (α β : Type) where
  inner : EchoState β
  upDelay : Nat
  downDelay : Nat
  tick : Nat
  downlink : List (Nat × α)
  uplink : List (Nat × β)
deriving DecidableEq

/-- Embedding of `Delay::new(inner, up_delay, down_delay)` with a fresh echo stage. -/
def Delay.new {α β : Type} (upDelay downDelay : Nat) : DelayState α β :=
  ⟨⟨[]⟩, upDelay, downDelay, 0, [], []⟩

/-- The first loop of `Delay::tick`:
`while downlink.front().is_some_and(|(t, _)| *t >= self.tick)` pop the
front entry and push it into the inner stage.  Note the source compares
`*t >= self.tick` (tag at least the current tick). -/
def releaseLoop {α β : Type} (f : α → β) (t : Nat) :
    EchoState β → List (Nat × α) → EchoState β × List (Nat × α)
  | inner, [] => (inner, [])
  | inner, (tag, req) :: rest =>
    if t ≤ tag then releaseLoop f t (echoPush f inner req) rest
    else (inner, (tag, req) :: rest)

/-- The second loop of `Delay::tick`:
`while let Some(resp) = self.inner.pop()` push `(self.tick + self.up_delay,
resp)` onto the uplink.  Against the echo stage this moves its whole ready
queue, front first. -/
def drainLoop {β : Type} (t u : Nat) : List β → List (Nat × β) → List (Nat × β)
  | [], uplink => uplink
  | r :: rest, uplink => drainLoop t u rest (uplink ++ [(t + u, r)])

/-- Embedding of `Delay::tick` (src/drain.rs:39-50): tick the inner stage (a no-op for
the echo stage), advance the counter, run the release loop, then the drain
loop. -/
def Delay.tick {α β : Type} (f : α → β) (s : DelayState α β) : DelayState α β :=
  let t := s.tick + 1
  let rel := releaseLoop f t s.inner s.downlink
  let uplink1 := drainLoop t s.upDelay rel.1.ready s.uplink
  { s with inner := ⟨[]⟩, tick := t, downlink := rel.2, uplink := uplink1 }

/-- Embedding of `Delay::push` (src/drain.rs:52-54). -/
def Delay.push {α β : Type} (s : DelayState α β) (req : α) : DelayState α β :=
  { s with downlink := s.downlink ++ [(s.tick + s.downDelay, req)] }

/-- Embedding of `Delay::pop` (src/drain.rs:56-63): return the uplink front when its tag
satisfies `*t >= self.tick`. -/
def Delay.pop {α β : Type} (s : DelayState α β) : Option β × DelayState α β :=
  match s.uplink with
  | [] => (none, s)
  | (tag, r) :: rest =>
    if s.tick ≤ tag then (some r, { s with uplink := rest }) else (none, s)

/-! ## Theorems on the crossbar -/

/-- C1.  The claim says a request whose address equals a registered range's
start is routed to that range's child.  The code instead computes
`children.range_mut(..addr).last()`, which ranges over keys strictly below
`addr`: the range starting exactly at `addr` is never a candidate, so with
a single registered range `[0x80000000, 0x80002000)` a request at address
`0x80000000` — which lies inside the range — panics out-of-range.  This
contradicts the spec's adopted predecessor form (greatest start `≤`
address), so the code, not the claim, is at fault. -/
theorem crossbar_start_boundary_faults :
    crossbarPush [⟨0x80000000, 0x80002000, 0⟩] 0x80000000 = .error oobMsg ∧
    (0x80000000 : Nat) ≤ 0x80000000 ∧ (0x80000000 : Nat) < 0x80002000 := by
  refine ⟨rfl, le_refl _, by norm_num⟩

/-- C7.  An address outside every registered range — below all starts, in a
gap, or at/above the exclusive end of the entry found by the predecessor
search — makes `Crossbar::push` panic with the out-of-range fault. -/
theorem crossbar_oob_fault (children : List Range) (addr : Nat)
    (h : ∀ r ∈ children, ¬ (r.start ≤ addr ∧ addr < r.stop)) :
    crossbarPush children addr = .error oobMsg := by
  unfold crossbarPush
  cases hlb : lookupLt children addr with
  | none => rfl
  | some r =>
    obtain ⟨hmem, hlt⟩ := lookupLt_mem children addr r hlb
    have := h r hmem
    have hstop : r.stop ≤ addr := by
      by_contra hc
      exact this ⟨Nat.le_of_lt hlt, Nat.lt_of_not_le hc⟩
    simp [hstop]

/-- Witness for C7 at a concrete configuration: one range `[0, 10)` and the
gap address `15`. -/
theorem crossbar_oob_fault_witness :
    crossbarPush [⟨0, 10, 0⟩] 15 = .error oobMsg :=
  crossbar_oob_fault [⟨0, 10, 0⟩] 15 (by decide)

/-! ## Theorems on the delay wrapper -/

/-- C2.  The claim says a `Delay` with `down_delay = 3`, `up_delay = 5`
around an immediate-echo stage answers a request pushed at cycle 0 no
earlier than cycle 8.  The code's release and pop conditions compare the
tag with `>= self.tick` instead of `<=`, so the request tagged `0 + 3` is
released on the very next tick and its response (tagged `1 + 5`) is
poppable immediately: the response is observed at cycle 1 < 8. -/
theorem delay_early_response :
    (Delay.pop (Delay.tick id (Delay.push (Delay.new 5 3) 42))).1 = some 42 ∧
    (Delay.tick id (Delay.push (Delay.new (α := Nat) (β := Nat) 5 3) 42)).tick = 1 ∧
    1 < 0 + 3 + 5 := by
  refine ⟨rfl, rfl, by norm_num⟩

/-! ## Beat-progress bookkeeping (`src/mem.rs`, `Progress<WIDTH>`)

`Progress` tracks, per in-flight aligned address, the beats sent to and
received from the detailed DRAM timing engine.  `WIDTH` is the const
generic parameter `W`, passed explicitly here.  Rust `u64` division and
remainder panic on a zero divisor; the embedding returns an error in
those (unreachable in practice) situations to stay faithful. -/

structure AddrProgress where
  sent : Nat
  recv : Nat
  isWrite : Bool
deriving DecidableEq

structure ProgressState where
  transferWidth : Nat
  progress : List (Nat × AddrProgress)
  done : List Nat
deriving DecidableEq

/-- Embedding of `Progress::<WIDTH>::default()`: `transfer_width = WIDTH`, empty tables. -/
def Progress.init (W : Nat) : ProgressState := ⟨W, [], []⟩

/-- Embedding of `Progress::multiplicity`: `WIDTH / transfer_width`. -/
def Progress.multiplicity (W : Nat) (s : ProgressState) : Nat := W / s.transferWidth

def alignMsg : String := "assertion failed: addr % WIDTH == 0"
def admitMsg : String := "assertion failed: insert(..).is_some()"
def seqMsg : String := "assertion failed: sequential response"
def vacantMsg : String := "Unexpected memory response"
def divZeroMsg : String := "attempt to calculate the remainder or divide with a divisor of zero"

/-- Embedding of `Progress::add` (src/mem.rs:69-76): assert the address is
`WIDTH`-aligned, insert a fresh record `{sent: 0, recv: 0, is_write}`,
then `assert!(... .is_some())` on the value the insert returned — i.e.
assert that an entry for this address **already existed**. -/
def Progress.add (W : Nat) (s : ProgressState) (addr : Nat) (isWrite : Bool) :
    Except String ProgressState :=
  if W = 0 then .error divZeroMsg
  else if addr % W ≠ 0 then .error alignMsg
  else
    let old := assocLookup s.progress addr
    let prog1 := assocInsert s.progress addr ⟨0, 0, isWrite⟩
    if old.isSome then .ok { s with progress := prog1 }
    else .error admitMsg

/-- Embedding of `Progress::step` (src/mem.rs:78-94): align the reported address down to
`WIDTH`, look its record up (a missing record is the protocol fault),
assert the beat is the next sequential one, then either remove the record
and enqueue the aligned address on `done` (last beat) or bump `recv`. -/
def Progress.step (W : Nat) (s : ProgressState) (addr : Nat) :
    Except String ProgressState :=
  if W = 0 then .error divZeroMsg
  else if s.transferWidth = 0 then .error divZeroMsg
  else
    let aligned := addr - addr % W
    let mult := Progress.multiplicity W s
    match assocLookup s.progress aligned with
    | none => .error vacantMsg
    | some prog =>
      if aligned + prog.recv * s.transferWidth ≠ addr then .error seqMsg
      else if prog.recv = mult - 1 then
        .ok { s with progress := assocErase s.progress aligned,
                     done := s.done ++ [aligned] }
      else
        .ok { s with progress :=
                assocInsert s.progress aligned { prog with recv := prog.recv + 1 } }

/-- Embedding of `Progress::pop` (src/mem.rs:96-98): FIFO drain of fully-done aligned
addresses — `done` is the only source of `pop` output. -/
def Progress.pop (s : ProgressState) : Option Nat × ProgressState :=
  match s.done with
  | [] => (none, s)
  | a :: rest => (some a, { s with done := rest })

/-! ## Theorems on the progress table -/

/-- C3.  The claim (and spec §4.4/§3) says admitting a `WIDTH`-aligned
address with no existing record (`DRAMSim::push` → `Progress::add`) does
not fault and records `sent = 0, recv = 0` with the direction.  The code
asserts `self.progress.insert(..).is_some()` — that the insert **replaced**
an existing entry — so admitting any fresh aligned address panics: here
`W = 8`, `addr = 0` (aligned, table empty) hits the failed assertion. -/
theorem progress_add_fresh_aligned_faults :
    Progress.add 8 (Progress.init 8) 0 true = .error admitMsg ∧
    0 % 8 = 0 ∧ assocLookup (Progress.init 8).progress 0 = none := by
  refine ⟨rfl, rfl, rfl⟩

/-- C10.  The code of `Progress::add` begins with `assert_eq!(addr % (WIDTH as u64),
0)`, so `DRAMSim::push` with an address that is not a multiple of `WIDTH`
panics (for `W = 0` the Rust remainder itself panics, also a fault). -/
theorem progress_add_unaligned_faults (W : Nat) (s : ProgressState) (addr : Nat) (w : Bool)
    (h : addr % W ≠ 0) : ∃ e, Progress.add W s addr w = .error e := by
  unfold Progress.add
  by_cases hW : W = 0
  · exact ⟨divZeroMsg, by simp [hW]⟩
  · exact ⟨alignMsg, by simp [hW, h]⟩

/-- Witness for C10: `W = 8`, `addr = 3` on the fresh table. -/
theorem progress_add_unaligned_faults_witness :
    (3 % 8 ≠ 0) ∧ ∃ e, Progress.add 8 (Progress.init 8) 3 true = .error e :=
  ⟨by decide, progress_add_unaligned_faults 8 (Progress.init 8) 3 true (by decide)⟩

/-- C8.  Behavior of `Progress::step` on a reported beat: a missing record for the
aligned address is the protocol fault; a beat that is not the next
sequential one (`aligned + recv * transfer_width ≠ addr`) is the protocol
fault; the last of the `multiplicity` beats removes the record and appends
the aligned address to `done` — the sole feed of `Progress::pop` — while
any earlier beat merely increments `recv`, leaving `done` unchanged. -/
theorem progress_step_spec (W : Nat) (s : ProgressState) (addr : Nat)
    (hW : W ≠ 0) (htw : s.transferWidth ≠ 0) :
    (assocLookup s.progress (addr - addr % W) = none →
      Progress.step W s addr = .error vacantMsg) ∧
    (∀ prog, assocLookup s.progress (addr - addr % W) = some prog →
      (addr - addr % W) + prog.recv * s.transferWidth ≠ addr →
      Progress.step W s addr = .error seqMsg) ∧
    (∀ prog, assocLookup s.progress (addr - addr % W) = some prog →
      (addr - addr % W) + prog.recv * s.transferWidth = addr →
      prog.recv = Progress.multiplicity W s - 1 →
      Progress.step W s addr =
        .ok { s with progress := assocErase s.progress (addr - addr % W),
                     done := s.done ++ [addr - addr % W] }) ∧
    (∀ prog, assocLookup s.progress (addr - addr % W) = some prog →
      (addr - addr % W) + prog.recv * s.transferWidth = addr →
      prog.recv ≠ Progress.multiplicity W s - 1 →
      Progress.step W s addr =
        .ok { s with progress := assocInsert s.progress (addr - addr % W) ({ prog with recv := prog.recv + 1 }) }) := by
  refine ⟨?_, ?_, ?_, ?_⟩
  · intro hnone
    simp [Progress.step, hW, htw, hnone]
  · intro prog hsome hne
    simp [Progress.step, hW, htw, hsome, hne]
  · intro prog hsome heq hlast
    rw [hlast] at heq
    simp [Progress.step, hW, htw, hsome, heq, hlast]
  · intro prog hsome heq hne
    simp [Progress.step, hW, htw, hsome, heq, hne]

/-- Witness for C8: `W = 8`, `transfer_width = 8` (multiplicity 1), one
record for address `16` with `recv = 0`; the reported beat `16` is the
last one, so the record is removed and `16` enqueued on `done`. -/
theorem progress_step_spec_witness :
    Progress.step 8 ⟨8, [(16, ⟨0, 0, true⟩)], []⟩ 16 =
      .ok ⟨8, [], [16]⟩ := by
  have h := (progress_step_spec 8 ⟨8, [(16, ⟨0, 0, true⟩)], []⟩ 16
    (by decide) (by decide)).2.2.1 ⟨0, 0, true⟩ (by decide) (by decide) (by decide)
  simpa using h

/-! ## Memory model (`src/mem.rs`, `Mem<D, WIDTH>` over `NoDelay`)

`Mem` holds the content store (`HashMap<u64, [u8; WIDTH]>`) and the
in-flight table (`HashMap<u64, usize>`), and delegates timing to a
`DelaySimulator`.  The in-core engine is `NoDelay`, a plain FIFO of
admitted addresses; `Mem` over `NoDelay` is what the claims exercise, so
the FIFO is inlined into the state.  Byte buffers `[u8; WIDTH]` become
`List Nat` of length `W`. -/

structure MemReq where
  id : Nat
  addr : Nat
  wbe : List Bool
  wdata : List Nat
deriving DecidableEq

structure MemResp where
  id : Nat
  rdata : List Nat
deriving DecidableEq

structure MemState where
  queue : List Nat
  content : List (Nat × List Nat)
  inflights : List (Nat × Nat)
deriving DecidableEq

/-- Embedding of `Mem::new` with `NoDelay::default()`. -/
def MemInit : MemState := ⟨[], [], []⟩

/-- The masked byte-merge loop of `Mem::push`
(`for (c, (w, be)) in buf.iter_mut().zip(wdata.iter().zip(wbe.iter()))`):
`zip` stops at the shortest operand and untouched suffix bytes keep their
value. -/
def applyMask : List Nat → List Nat → List Bool → List Nat
  | [], _, _ => []
  | c :: cs, [], _ => c :: cs
  | c :: cs, _, [] => c :: cs
  | c :: cs, w :: ws, b :: bs => (if b then w else c) :: applyMask cs ws bs

def dupMsg : String := "Duplicated inflight memory requests"
def respMsg : String := "Unexpected memory response"

/-- Embedding of `Mem::push` (src/mem.rs:177-196): panic on a duplicate in-flight
address; otherwise record `addr -> id`, admit the address to the timing
engine (`NoDelay` just enqueues it; the write/read direction
`wbe.contains(&true)` is ignored by `NoDelay`), and merge `wdata` under
`wbe` into the content entry, creating it zero-filled when absent. -/
def Mem.push (W : Nat) (s : MemState) (req : MemReq) : Except String MemState :=
  if (assocLookup s.inflights req.addr).isSome then .error dupMsg
  else
    let inflights1 := assocInsert s.inflights req.addr req.id
    let queue1 := s.queue ++ [req.addr]
    let content1 :=
      match assocLookup s.content req.addr with
      | some old => assocInsert s.content req.addr (applyMask old req.wdata req.wbe)
      | none => assocInsert s.content req.addr (applyMask (List.replicate W 0) req.wdata req.wbe)
    .ok ⟨queue1, content1, inflights1⟩

/-- Embedding of `Mem::pop` (src/mem.rs:198-207): ask the engine for a completed
address (`NoDelay` dequeues its FIFO front); read the content entry,
defaulting to a zero buffer; remove the in-flight entry, panicking
(`expect`) when it is absent. -/
def Mem.pop (W : Nat) (s : MemState) : Except String (Option MemResp × MemState) :=
  match s.queue with
  | [] => .ok (none, s)
  | addr :: rest =>
    let rdata := (assocLookup s.content addr).getD (List.replicate W 0)
    match assocLookup s.inflights addr with
    | none => .error respMsg
    | some id => .ok (some ⟨id, rdata⟩, ⟨rest, s.content, assocErase s.inflights addr⟩)

/-! ### Lemmas about the masked merge -/

theorem applyMask_length (c w : List Nat) (b : List Bool) :
    (applyMask c w b).length = c.length := by
  induction c generalizing w b with
  | nil => simp [applyMask]
  | cons x cs ih =>
    cases w with
    | nil => simp [applyMask]
    | cons y ws =>
      cases b with
      | nil => simp [applyMask]
      | cons z bs => simp [applyMask, ih]

theorem applyMask_all_true (c w : List Nat) (n : Nat)
    (hc : c.length = n) (hw : w.length = n) :
    applyMask c w (List.replicate n true) = w := by
  induction c generalizing w n with
  | nil =>
    cases w with
    | nil => simp [applyMask]
    | cons y ws => subst hc; simp at hw
  | cons x cs ih =>
    cases w with
    | nil => subst hw; simp at hc
    | cons y ws =>
      cases n with
      | zero => simp at hc
      | succ m =>
        simp only [List.replicate, applyMask, if_true]
        simp at hc hw
        rw [ih ws m hc hw]

theorem applyMask_all_false (c w : List Nat) (b : List Bool)
    (hb : ∀ x ∈ b, x = false) : applyMask c w b = c := by
  induction c generalizing w b with
  | nil => simp [applyMask]
  | cons x cs ih =>
    cases w with
    | nil => simp [applyMask]
    | cons y ws =>
      cases b with
      | nil => simp [applyMask]
      | cons z bs =>
        have hz : z = false := hb z (List.mem_cons_self z bs)
        have hbs : ∀ x ∈ bs, x = false := fun x hx => hb x (List.mem_cons_of_mem z hx)
        simp [applyMask, hz, ih ws bs hbs]

theorem applyMask_getD (c w : List Nat) (b : List Bool) (i : Nat)
    (hw : w.length = c.length) (hb : b.length = c.length) (hi : i < c.length) :
    (applyMask c w b).getD i 0 =
      if b.getD i false then w.getD i 0 else c.getD i 0 := by
  induction c generalizing w b i with
  | nil => simp at hi
  | cons x cs ih =>
    cases w with
    | nil => simp at hw
    | cons y ws =>
      cases b with
      | nil => simp at hb
      | cons z bs =>
        cases i with
        | zero => simp [applyMask]
        | succ j =>
          simp only [applyMask, List.getD_cons_succ]
          simp at hw hb hi
          exact ih ws bs j hw hb hi

/-- Normal form of a successful `Mem::push`: the address is enqueued on
the `NoDelay` FIFO, the content entry is merged (the absent case merges
into a zero buffer), and the in-flight entry is recorded. -/
theorem mem_push_ok (W : Nat) (s : MemState) (req : MemReq)
    (h : assocLookup s.inflights req.addr = none) :
    Mem.push W s req = .ok ⟨s.queue ++ [req.addr],
      assocInsert s.content req.addr
        (applyMask ((assocLookup s.content req.addr).getD (List.replicate W 0))
          req.wdata req.wbe),
      assocInsert s.inflights req.addr req.id⟩ := by
  cases hc : assocLookup s.content req.addr <;> simp [Mem.push, h, hc]

/-! ## Theorems on the memory model -/

/-- C6.  The code of `Mem::push` panics with the duplicate-in-flight fault exactly on
an address already holding an unresolved in-flight entry; a fresh address
is admitted without fault. -/
theorem mem_duplicate_inflight (W : Nat) (s : MemState) (req : MemReq) :
    ((assocLookup s.inflights req.addr).isSome →
      Mem.push W s req = .error dupMsg) ∧
    ((assocLookup s.inflights req.addr).isNone →
      ∃ s1, Mem.push W s req = .ok s1) := by
  constructor
  · intro h
    simp [Mem.push, h]
  · intro h
    have hn : assocLookup s.inflights req.addr = none :=
      Option.isNone_iff_eq_none.mp h
    exact ⟨_, mem_push_ok W s req hn⟩

/-- Witness for C6: a state with address 5 in flight rejects a second
request to 5; the fresh model accepts one. -/
theorem mem_duplicate_inflight_witness :
    Mem.push 1 ⟨[], [], [(5, 0)]⟩ ⟨1, 5, [true], [7]⟩ = .error dupMsg ∧
    ∃ s1, Mem.push 1 MemInit ⟨1, 5, [true], [7]⟩ = .ok s1 :=
  ⟨(mem_duplicate_inflight 1 ⟨[], [], [(5, 0)]⟩ ⟨1, 5, [true], [7]⟩).1 (by decide),
   (mem_duplicate_inflight 1 MemInit ⟨1, 5, [true], [7]⟩).2 (by decide)⟩

/-- C5.  A successful `Mem::push` leaves, at the request's address, a
buffer whose bytes at mask-set positions are the corresponding
`write_data` bytes and whose bytes at mask-unset positions are the prior
stored bytes — a zero buffer standing in when the address was never
touched before. -/
theorem mem_partial_mask_write (W : Nat) (s : MemState) (req : MemReq) (s1 : MemState)
    (hb : req.wbe.length = W) (hw : req.wdata.length = W)
    (hold : ∀ old, assocLookup s.content req.addr = some old → old.length = W)
    (hpush : Mem.push W s req = .ok s1) :
    ∃ buf, assocLookup s1.content req.addr = some buf ∧ buf.length = W ∧
      ∀ i, i < W →
        buf.getD i 0 =
          if req.wbe.getD i false then req.wdata.getD i 0
          else ((assocLookup s.content req.addr).getD (List.replicate W 0)).getD i 0 := by
  have hn : assocLookup s.inflights req.addr = none := by
    by_cases hin : (assocLookup s.inflights req.addr).isSome
    · simp [Mem.push, hin] at hpush
    · exact Option.not_isSome_iff_eq_none.mp hin
  rw [mem_push_ok W s req hn] at hpush
  have hs1 : s1 = ⟨s.queue ++ [req.addr],
      assocInsert s.content req.addr
        (applyMask ((assocLookup s.content req.addr).getD (List.replicate W 0))
          req.wdata req.wbe),
      assocInsert s.inflights req.addr req.id⟩ := by
    cases hpush
    rfl
  have hbase : ((assocLookup s.content req.addr).getD (List.replicate W 0)).length = W := by
    cases hcl : assocLookup s.content req.addr with
    | none => simp
    | some old => simpa using hold old hcl
  refine ⟨applyMask ((assocLookup s.content req.addr).getD (List.replicate W 0))
    req.wdata req.wbe, ?_, ?_, ?_⟩
  · rw [hs1]
    simp [assocLookup_insert]
  · rw [applyMask_length, hbase]
  · intro i hi
    rw [applyMask_getD]
    · rw [hw, hbase]
    · rw [hb, hbase]
    · rw [hbase]
      exact hi

/-- Witness for C5: `W = 2`, first touch of address 4 with mask
`[true, false]` and data `[9, 9]` stores `[9, 0]`. -/
theorem mem_partial_mask_write_witness :
    Mem.push 2 MemInit ⟨0, 4, [true, false], [9, 9]⟩ =
      .ok ⟨[4], [(4, [9, 0])], [(4, 0)]⟩ ∧
    ∃ buf, assocLookup (⟨[4], [(4, [9, 0])], [(4, 0)]⟩ : MemState).content 4 =
        some buf ∧ buf.length = 2 ∧
      ∀ i, i < 2 →
        buf.getD i 0 =
          if ([true, false] : List Bool).getD i false then ([9, 9] : List Nat).getD i 0
          else ((assocLookup MemInit.content 4).getD (List.replicate 2 0)).getD i 0 :=
  ⟨by rfl,
   mem_partial_mask_write 2 MemInit ⟨0, 4, [true, false], [9, 9]⟩
     ⟨[4], [(4, [9, 0])], [(4, 0)]⟩ (by decide) (by decide)
     (fun old h => by simp [MemInit, assocLookup] at h) (by rfl)⟩

/-- C4.  Write/read round-trip on `Mem` over the `NoDelay` engine: from a
quiescent state (engine FIFO empty, target address not in flight), a
full-mask write of `D` to `a`, its response drained via `pop`, then a
pure read of `a` (all-false mask) yields a response carrying exactly
`D`. -/
theorem mem_write_read_roundtrip (W a i1 i2 : Nat) (D : List Nat) (s0 : MemState)
    (hq : s0.queue = [])
    (hnf : assocLookup s0.inflights a = none)
    (hD : D.length = W)
    (hold : ∀ old, assocLookup s0.content a = some old → old.length = W) :
    ∃ s1 r1 s2 s3 r2 s4,
      Mem.push W s0 ⟨i1, a, List.replicate W true, D⟩ = .ok s1 ∧
      Mem.pop W s1 = .ok (some r1, s2) ∧
      Mem.push W s2 ⟨i2, a, List.replicate W false, List.replicate W 0⟩ = .ok s3 ∧
      Mem.pop W s3 = .ok (some r2, s4) ∧
      r2.id = i2 ∧ r2.rdata = D := by
  have hbase : ((assocLookup s0.content a).getD (List.replicate W 0)).length = W := by
    cases hcl : assocLookup s0.content a with
    | none => simp
    | some old => simpa using hold old hcl
  have hbuf1 : applyMask ((assocLookup s0.content a).getD (List.replicate W 0)) D
      (List.replicate W true) = D :=
    applyMask_all_true _ D W hbase hD
  have h1 : Mem.push W s0 ⟨i1, a, List.replicate W true, D⟩ =
      .ok ⟨[a], assocInsert s0.content a D, assocInsert s0.inflights a i1⟩ := by
    rw [mem_push_ok W s0 ⟨i1, a, List.replicate W true, D⟩ hnf]
    simp only [hq, List.nil_append]
    rw [hbuf1]
  have hlook1 : assocLookup (assocInsert s0.content a D) a = some D := by
    simp [assocLookup_insert]
  have hinf1 : assocLookup (assocInsert s0.inflights a i1) a = some i1 := by
    simp [assocLookup_insert]
  have hI : assocErase (assocInsert s0.inflights a i1) a = s0.inflights := by
    rw [assocInsert_of_lookup_none _ _ _ hnf, assocErase_append_self _ _ _ hnf]
  have h2 : Mem.pop W ⟨[a], assocInsert s0.content a D, assocInsert s0.inflights a i1⟩ =
      .ok (some ⟨i1, D⟩, ⟨[], assocInsert s0.content a D, s0.inflights⟩) := by
    simp [Mem.pop, hlook1, hinf1, hI]
  have hbuf2 : applyMask D (List.replicate W 0) (List.replicate W false) = D :=
    applyMask_all_false _ _ _ (fun x hx => List.eq_of_mem_replicate hx)
  have h3 : Mem.push W ⟨[], assocInsert s0.content a D, s0.inflights⟩
      ⟨i2, a, List.replicate W false, List.replicate W 0⟩ =
      .ok ⟨[a], assocInsert (assocInsert s0.content a D) a D,
        assocInsert s0.inflights a i2⟩ := by
    rw [mem_push_ok W ⟨[], assocInsert s0.content a D, s0.inflights⟩
      ⟨i2, a, List.replicate W false, List.replicate W 0⟩ hnf]
    simp only [List.nil_append, hlook1, Option.getD_some]
    rw [hbuf2]
  have hlook2 : assocLookup (assocInsert (assocInsert s0.content a D) a D) a = some D := by
    simp [assocLookup_insert]
  have hinf2 : assocLookup (assocInsert s0.inflights a i2) a = some i2 := by
    simp [assocLookup_insert]
  have h4 : Mem.pop W ⟨[a], assocInsert (assocInsert s0.content a D) a D,
      assocInsert s0.inflights a i2⟩ =
      .ok (some ⟨i2, D⟩, ⟨[], assocInsert (assocInsert s0.content a D) a D,
        assocErase (assocInsert s0.inflights a i2) a⟩) := by
    simp [Mem.pop, hlook2, hinf2]
  exact ⟨_, ⟨i1, D⟩, _, _, ⟨i2, D⟩, _, h1, h2, h3, h4, rfl, rfl⟩

/-- Witness for C4: `W = 1`, fresh model, write `[7]` to address 0 with id
0, drain, read back with id 1. -/
theorem mem_write_read_roundtrip_witness :
    MemInit.queue = [] ∧ assocLookup MemInit.inflights 0 = none ∧
    ([7] : List Nat).length = 1 ∧
    ∃ s1 r1 s2 s3 r2 s4,
      Mem.push 1 MemInit ⟨0, 0, List.replicate 1 true, [7]⟩ = .ok s1 ∧
      Mem.pop 1 s1 = .ok (some r1, s2) ∧
      Mem.push 1 s2 ⟨1, 0, List.replicate 1 false, List.replicate 1 0⟩ = .ok s3 ∧
      Mem.pop 1 s3 = .ok (some r2, s4) ∧
      r2.id = 1 ∧ r2.rdata = [7] :=
  ⟨rfl, rfl, rfl,
   mem_write_read_roundtrip 1 0 0 1 [7] MemInit rfl rfl rfl
     (fun old h => by simp [MemInit, assocLookup] at h)⟩

/-! ### Reachable states of the memory model -/

/-- One externally observable operation on `Mem` over `NoDelay`:
`tick` (a no-op, `NoDelay::tick` does nothing), a non-panicking `push`,
or a non-panicking `pop`. -/
inductive MemStep (W : Nat) : MemState → MemState → Prop where
  | tick (s : MemState) : MemStep W s s
  | push (s : MemState) (req : MemReq) (s1 : MemState)
      (h : Mem.push W s req = .ok s1) : MemStep W s s1
  | pop (s : MemState) (o : Option MemResp) (s1 : MemState)
      (h : Mem.pop W s = .ok (o, s1)) : MemStep W s s1

/-- States reachable from `Mem::new` by non-panicking operations. -/
def MemReachable (W : Nat) (s : MemState) : Prop :=
  Relation.ReflTransGen (MemStep W) MemInit s

/-- The content-coverage invariant is preserved by every step: any address
that is in flight or queued in the engine has a content entry. -/
theorem mem_inv_step (W : Nat) (s s1 : MemState) (h : MemStep W s s1)
    (ih : ∀ a, ((∃ id, assocLookup s.inflights a = some id) ∨ a ∈ s.queue) →
      (assocLookup s.content a).isSome) :
    ∀ a, ((∃ id, assocLookup s1.inflights a = some id) ∨ a ∈ s1.queue) →
      (assocLookup s1.content a).isSome := by
  cases h with
  | tick => exact ih
  | push req s1 h =>
    have hn : assocLookup s.inflights req.addr = none := by
      by_cases hin : (assocLookup s.inflights req.addr).isSome
      · simp [Mem.push, hin] at h
      · exact Option.not_isSome_iff_eq_none.mp hin
    rw [mem_push_ok W s req hn] at h
    have hs1 : s1 = ⟨s.queue ++ [req.addr],
        assocInsert s.content req.addr
          (applyMask ((assocLookup s.content req.addr).getD (List.replicate W 0))
            req.wdata req.wbe),
        assocInsert s.inflights req.addr req.id⟩ := by
      cases h
      rfl
    subst hs1
    intro a ha
    by_cases haddr : req.addr = a
    · simp [assocLookup_insert, haddr]
    · rw [assocLookup_insert]
      simp only [haddr, if_false]
      apply ih
      rcases ha with ⟨id, hid⟩ | hq
      · rw [assocLookup_insert] at hid
        simp only [haddr, if_false] at hid
        exact Or.inl ⟨id, hid⟩
      · simp only [List.mem_append, List.mem_singleton] at hq
        rcases hq with hq | hq
        · exact Or.inr hq
        · exact absurd hq.symm haddr
  | pop o s1 h =>
    obtain ⟨q, c, infl⟩ := s
    cases q with
    | nil =>
      simp [Mem.pop] at h
      rw [← h.2]
      exact ih
    | cons addr rest =>
      simp only [Mem.pop] at h
      cases hin : assocLookup infl addr with
      | none => rw [hin] at h; cases h
      | some id =>
        rw [hin] at h
        simp only [Except.ok.injEq, Prod.mk.injEq] at h
        rw [← h.2]
        intro a ha
        simp only []
        apply ih
        rcases ha with ⟨id2, hid⟩ | hq
        · have : (assocLookup (assocErase infl addr) a).isSome := by
            simp [hid]
          have := isSome_of_lookup_erase infl addr a this
          rcases Option.isSome_iff_exists.mp this with ⟨id3, hid3⟩
          exact Or.inl ⟨id3, hid3⟩
        · exact Or.inr (List.mem_cons_of_mem addr hq)

/-- C9.  In every reachable state of `Mem` over `NoDelay`, every address
held in the in-flight table (or pending in the engine FIFO, where `pop`
reads addresses from) has a content entry — `Mem::push` creates the entry
even for a pure all-false-mask read — so the zero-buffer `unwrap_or`
fallback in `Mem::pop` is never exercised: every produced response's
`rdata` is the value of an existing content entry. -/
theorem mem_content_covers_inflight (W : Nat) (s : MemState)
    (hr : MemReachable W s) :
    (∀ a, ((∃ id, assocLookup s.inflights a = some id) ∨ a ∈ s.queue) →
      (assocLookup s.content a).isSome) ∧
    (∀ r s1, Mem.pop W s = .ok (some r, s1) →
      ∃ addr buf, s.queue.head? = some addr ∧
        assocLookup s.content addr = some buf ∧ r.rdata = buf) := by
  have hinv : ∀ a, ((∃ id, assocLookup s.inflights a = some id) ∨ a ∈ s.queue) →
      (assocLookup s.content a).isSome := by
    induction hr with
    | refl =>
      intro a ha
      rcases ha with ⟨id, hid⟩ | hq
      · simp [MemInit, assocLookup] at hid
      · simp [MemInit] at hq
    | tail hsteps hstep ih => exact mem_inv_step W _ _ hstep ih
  refine ⟨hinv, ?_⟩
  intro r s1 hpop
  obtain ⟨q, c, infl⟩ := s
  cases q with
  | nil => simp [Mem.pop] at hpop
  | cons addr rest =>
    have hsome : (assocLookup c addr).isSome :=
      hinv addr (Or.inr (List.mem_cons_self addr rest))
    rcases Option.isSome_iff_exists.mp hsome with ⟨buf, hbuf⟩
    refine ⟨addr, buf, rfl, hbuf, ?_⟩
    simp only [Mem.pop, hbuf] at hpop
    cases hin : assocLookup infl addr with
    | none => rw [hin] at hpop; cases hpop
    | some id =>
      rw [hin] at hpop
      simp only [Except.ok.injEq, Prod.mk.injEq, Option.some.injEq] at hpop
      rw [← hpop.1]
      simp

/-- Witness for C9 at the initial state, reachable by the empty run. -/
theorem mem_content_covers_inflight_witness :
    MemReachable 1 MemInit ∧
    ((∀ a, ((∃ id, assocLookup MemInit.inflights a = some id) ∨ a ∈ MemInit.queue) →
      (assocLookup MemInit.content a).isSome) ∧
    (∀ r s1, Mem.pop 1 MemInit = .ok (some r, s1) →
      ∃ addr buf, MemInit.queue.head? = some addr ∧
        assocLookup MemInit.content addr = some buf ∧ r.rdata = buf)) :=
  ⟨Relation.ReflTransGen.refl,
   mem_content_covers_inflight 1 MemInit Relation.ReflTransGen.refl⟩

end UncoreSim
